import Mathlib

/-!
Verification of the type-string parser, reconstructor, dummy-value inference
and arrange-block generator of `generate_unit_tests_dotnet_core.py`.

Strings are modelled as `List Char`.  Python string operations are embedded
faithfully: `str.strip()` removes leading/trailing whitespace,
`str.replace(' ', '')` removes only space characters, `str.find('<')` is
modelled by splitting at the first `'<'`, slices by `take`/`drop`/`dropLast`.
-/

namespace GenUnitTests

/-- The whitespace set of Python `str.strip()` (the ASCII part; the inputs of
interest contain only ASCII). -/
def pyIsSpace (c : Char) : Bool :=
  c = ' ' || c = '\t' || c = '\n' || c = '\r' || c = '\x0b' || c = '\x0c'

/-- Python `s.strip()`: drop leading and trailing whitespace. -/
def pyStrip (s : List Char) : List Char :=
  ((s.dropWhile pyIsSpace).reverse.dropWhile pyIsSpace).reverse

/-- Python `s.replace(' ', '')`: remove all space characters (only `' '`). -/
def removeSpaces (s : List Char) : List Char :=
  s.filter (fun c => c ≠ ' ')

/-- Python `s.lower()` (ASCII case mapping). -/
def pyLower (s : List Char) : List Char :=
  s.map Char.toLower

/-- The tuple tree returned by `parse_generic_type`: a base name together with
the list of recursively parsed generic arguments. -/
inductive TypeDesc where
  | mk (base : List Char) (args : List TypeDesc)

/-- `base` of a `TypeDesc`. -/
def TypeDesc.base : TypeDesc → List Char
  | .mk b _ => b

/-- `args` of a `TypeDesc`. -/
def TypeDesc.args : TypeDesc → List TypeDesc
  | .mk _ a => a

/-- Python `type_str.find('<')` combined with the two slices
`type_str[:lt_pos]` and `type_str[lt_pos+1:]`: returns `none` when there is
no `'<'`, otherwise the prefix before the first `'<'` and the suffix after
it. -/
def splitFirstLt : List Char → Option (List Char × List Char)
  | [] => none
  | c :: cs =>
    if c = '<' then some ([], cs)
    else
      match splitFirstLt cs with
      | none => none
      | some (b, r) => some (c :: b, r)

/-- The comma-splitting loop of `parse_generic_type`: walks the characters of
`args_str` keeping a bracket-nesting `depth` (a Python `int`, so it may go
negative) and the accumulated `current_arg`; a comma at depth 0 emits the
stripped current argument, every other character (including the brackets)
is appended to it; at the end the stripped current argument is emitted if
non-empty. -/
def parseArgsLoop : List Char → Int → List Char → List (List Char)
  | [], _, cur => if cur.isEmpty then [] else [pyStrip cur]
  | c :: rest, depth, cur =>
    if c = '<' then parseArgsLoop rest (depth + 1) (cur ++ [c])
    else if c = '>' then parseArgsLoop rest (depth - 1) (cur ++ [c])
    else if c = ',' ∧ depth = 0 then pyStrip cur :: parseArgsLoop rest depth []
    else parseArgsLoop rest depth (cur ++ [c])

theorem splitFirstLt_eq {t b r : List Char} (h : splitFirstLt t = some (b, r)) :
    t = b ++ '<' :: r ∧ '<' ∉ b := by
  induction t generalizing b r with
  | nil => simp [splitFirstLt] at h
  | cons c cs ih =>
    by_cases hc : c = '<'
    · simp [splitFirstLt, hc] at h
      simp [hc, h.1, h.2]
    · simp only [splitFirstLt, if_neg hc] at h
      cases hs : splitFirstLt cs with
      | none => rw [hs] at h; exact absurd h (by simp)
      | some br =>
        obtain ⟨b', r'⟩ := br
        rw [hs] at h
        simp at h
        obtain ⟨hb, hr⟩ := h
        obtain ⟨h1, h2⟩ := ih hs
        subst hb hr
        constructor
        · simp [h1]
        · simp [h2, Ne.symm hc]

theorem pyStrip_length_le (s : List Char) : (pyStrip s).length ≤ s.length := by
  unfold pyStrip
  calc ((s.dropWhile pyIsSpace).reverse.dropWhile pyIsSpace).reverse.length
      = ((s.dropWhile pyIsSpace).reverse.dropWhile pyIsSpace).length := by
        rw [List.length_reverse]
    _ ≤ (s.dropWhile pyIsSpace).reverse.length := (List.dropWhile_sublist _).length_le
    _ = (s.dropWhile pyIsSpace).length := by rw [List.length_reverse]
    _ ≤ s.length := (List.dropWhile_sublist _).length_le

/-- Every piece produced by the comma-splitting loop is no longer than the
accumulator plus the remaining input. -/
theorem parseArgsLoop_mem_length_le :
    ∀ (l : List Char) (d : Int) (cur p : List Char),
      p ∈ parseArgsLoop l d cur → p.length ≤ cur.length + l.length := by
  intro l
  induction l with
  | nil =>
    intro d cur p hp
    simp only [parseArgsLoop] at hp
    split at hp
    · simp at hp
    · simp at hp
      subst hp
      simpa using pyStrip_length_le cur
  | cons c rest ih =>
    intro d cur p hp
    simp only [parseArgsLoop] at hp
    split at hp
    · have := ih _ _ _ hp
      simp at this ⊢
      omega
    · split at hp
      · have := ih _ _ _ hp
        simp at this ⊢
        omega
      · split at hp
        · rcases List.mem_cons.mp hp with h | h
          · subst h
            have := pyStrip_length_le cur
            simp
            omega
          · have := ih _ _ _ h
            simp at this ⊢
            omega
        · have := ih _ _ _ hp
          simp at this ⊢
          omega

/-- The total length of the pieces produced by the comma-splitting loop,
plus their number, is bounded by the accumulator plus the input plus one
(each split comma pays for one piece). -/
theorem parseArgsLoop_sum_le :
    ∀ (l : List Char) (d : Int) (cur : List Char),
      ((parseArgsLoop l d cur).map List.length).sum + (parseArgsLoop l d cur).length ≤
        cur.length + l.length + 1 := by
  intro l
  induction l with
  | nil =>
    intro d cur
    simp only [parseArgsLoop]
    split
    · simp
    · have := pyStrip_length_le cur
      simp
      omega
  | cons c rest ih =>
    intro d cur
    simp only [parseArgsLoop]
    split
    · have := ih (d + 1) (cur ++ [c])
      simp at this ⊢
      omega
    · split
      · have := ih (d - 1) (cur ++ [c])
        simp at this ⊢
        omega
      · split
        · have h1 := ih d []
          have h2 := pyStrip_length_le cur
          simp at h1 ⊢
          omega
        · have := ih d (cur ++ [c])
          simp at this ⊢
          omega

theorem removeSpaces_length_le (s : List Char) : (removeSpaces s).length ≤ s.length :=
  List.length_filter_le _ s

mutual

/-- Embedding of `parse_generic_type`: removes spaces, finds the first `'<'`;
if none, the whole string is the base with no arguments; otherwise the prefix
is the base, the final character of the remainder is discarded
(`type_str[lt_pos+1:-1]`), the result is split on top-level commas and each
piece is parsed recursively. -/
def parse_generic_type (s : List Char) : TypeDesc :=
  match h : splitFirstLt (removeSpaces s) with
  | none => .mk (removeSpaces s) []
  | some (base, rest) =>
    .mk base (parseArgsList (parseArgsLoop rest.dropLast 0 []))
termination_by s.length
decreasing_by
  obtain ⟨ht, -⟩ := splitFirstLt_eq h
  have hlen : (removeSpaces s).length ≤ s.length := removeSpaces_length_le s
  rw [ht] at hlen
  simp at hlen
  rcases rest with - | ⟨c, cs⟩
  · simp [parseArgsLoop]
    omega
  · have := parseArgsLoop_sum_le ((c :: cs).dropLast) 0 []
    have hd : (c :: cs).length = cs.length + 1 := rfl
    simp at this ⊢
    omega

/-- Recursive parsing of the list of comma-split argument strings
(`[parse_generic_type(arg) for arg in args]`). -/
def parseArgsList : List (List Char) → List TypeDesc
  | [] => []
  | p :: ps => parse_generic_type p :: parseArgsList ps
termination_by ps => (ps.map List.length).sum + ps.length
decreasing_by
  · simp; omega
  · simp; omega

end

/-- Join a list of strings with a separator (Python `sep.join(pieces)`). -/
def joinSep (sep : List Char) : List (List Char) → List Char
  | [] => []
  | [x] => x
  | x :: y :: ys => x ++ sep ++ joinSep sep (y :: ys)

mutual

/-- Embedding of `generic_to_string`: the base alone when there are no
arguments, otherwise the base followed by the recursively reconstructed
arguments joined by `", "` between angle brackets. -/
def generic_to_string : TypeDesc → List Char
  | .mk base [] => base
  | .mk base (a :: as) => base ++ '<' :: gtsArgs (a :: as) ++ ['>']

/-- The list comprehension `[generic_to_string(a[0], a[1]) for a in args]`
fused with the `', '.join`. -/
def gtsArgs : List TypeDesc → List Char
  | [] => []
  | [a] => generic_to_string a
  | a :: as => generic_to_string a ++ ',' :: ' ' :: gtsArgs as

end

theorem parseArgsList_eq_map (ps : List (List Char)) :
    parseArgsList ps = ps.map parse_generic_type := by
  induction ps with
  | nil => simp [parseArgsList]
  | cons p ps ih => simp [parseArgsList, ih]

theorem removeSpaces_idem (s : List Char) :
    removeSpaces (removeSpaces s) = removeSpaces s :=
  List.filter_eq_self.mpr fun _ hc => (List.mem_filter.mp hc).2

/-- A list all of whose characters occur in a space-filtered string is left
unchanged by space removal. -/
theorem removeSpaces_eq_self_of_mem {s l : List Char}
    (h : ∀ c ∈ l, c ∈ removeSpaces s) : removeSpaces l = l :=
  List.filter_eq_self.mpr fun c hc => (List.mem_filter.mp (h c hc)).2

theorem removeSpaces_append (l r : List Char) :
    removeSpaces (l ++ r) = removeSpaces l ++ removeSpaces r := by
  simp [removeSpaces]

theorem removeSpaces_gtsArgs (as : List TypeDesc) :
    removeSpaces (gtsArgs as) =
      joinSep [','] (as.map fun a => removeSpaces (generic_to_string a)) := by
  induction as with
  | nil => simp [gtsArgs, joinSep, removeSpaces]
  | cons a as ih =>
    cases as with
    | nil => simp [gtsArgs, joinSep]
    | cons b bs =>
      simp only [gtsArgs, List.map_cons]
      rw [show generic_to_string a ++ ',' :: ' ' :: gtsArgs (b :: bs) =
            generic_to_string a ++ ([','] ++ ([' '] ++ gtsArgs (b :: bs))) by simp,
          removeSpaces_append, removeSpaces_append, removeSpaces_append]
      rw [List.map_cons] at ih
      rw [ih]
      simp [removeSpaces, joinSep]

theorem removeSpaces_gts_nil (b : List Char) :
    removeSpaces (generic_to_string (.mk b [])) = removeSpaces b := by
  simp [generic_to_string]

theorem removeSpaces_gts_cons (b : List Char) (a : TypeDesc) (as : List TypeDesc) :
    removeSpaces (generic_to_string (.mk b (a :: as))) =
      removeSpaces b ++
        '<' :: joinSep [','] ((a :: as).map fun x => removeSpaces (generic_to_string x)) ++
          ['>'] := by
  rw [generic_to_string,
      show b ++ '<' :: gtsArgs (a :: as) ++ ['>'] =
        b ++ (['<'] ++ (gtsArgs (a :: as) ++ ['>'])) by simp,
      removeSpaces_append, removeSpaces_append, removeSpaces_append,
      removeSpaces_gtsArgs]
  simp [removeSpaces]

theorem joinSep_comma_length (xs : List (List Char)) (h : xs ≠ []) :
    (joinSep [','] xs).length + 1 = (xs.map List.length).sum + xs.length := by
  induction xs with
  | nil => simp at h
  | cons x xs ih =>
    cases xs with
    | nil => simp [joinSep]
    | cons y ys =>
      have := ih (by simp)
      simp only [joinSep, List.map_cons, List.sum_cons, List.length_cons,
        List.length_append, List.length_nil] at this ⊢
      omega

/-- Core length bound: reconstructing a parsed string and removing spaces
never yields a longer string than the space-filtered input. -/
theorem length_removeSpaces_gts_parse_le :
    ∀ (n : Nat) (s : List Char), s.length ≤ n →
      (removeSpaces (generic_to_string (parse_generic_type s))).length ≤
        (removeSpaces s).length := by
  intro n
  induction n with
  | zero =>
    intro s hs
    have : s = [] := List.length_eq_zero.mp (Nat.le_zero.mp hs)
    subst this
    simp [parse_generic_type, removeSpaces, splitFirstLt, generic_to_string]
  | succ n ih =>
    intro s hs
    rw [parse_generic_type]
    split
    · rw [removeSpaces_gts_nil]
      simp [removeSpaces_idem]
    · rename_i base rest hsome
      obtain ⟨ht, -⟩ := splitFirstLt_eq hsome
      have hbase : removeSpaces base = base := by
        apply @removeSpaces_eq_self_of_mem s base
        intro c hc
        rw [ht]
        simp [hc]
      have htlen : (removeSpaces s).length = base.length + 1 + rest.length := by
        rw [ht]; simp; omega
      have hs_le : (removeSpaces s).length ≤ s.length := removeSpaces_length_le s
      rw [parseArgsList_eq_map]
      cases hpieces : parseArgsLoop rest.dropLast 0 [] with
      | nil =>
        rw [List.map_nil, removeSpaces_gts_nil, hbase]
        omega
      | cons p ps =>
        have hrest_ne : rest ≠ [] := by
          intro h0
          rw [h0] at hpieces
          simp [parseArgsLoop] at hpieces
        have hdrop : rest.dropLast.length + 1 = rest.length := by
          rw [List.length_dropLast]
          have : rest.length ≠ 0 := fun h0 => hrest_ne (List.length_eq_zero.mp h0)
          omega
        have hmem_le : ∀ q ∈ p :: ps, q.length ≤ rest.dropLast.length := by
          intro q hq
          have := parseArgsLoop_mem_length_le rest.dropLast 0 [] q (hpieces ▸ hq)
          simpa using this
        have hsum := parseArgsLoop_sum_le rest.dropLast 0 []
        rw [hpieces] at hsum
        simp only [List.length_nil, Nat.zero_add] at hsum
        have hrec : ∀ q ∈ p :: ps,
            (removeSpaces (generic_to_string (parse_generic_type q))).length ≤
              q.length := by
          intro q hq
          have h1 := hmem_le q hq
          exact le_trans (ih q (by omega)) (removeSpaces_length_le q)
        rw [List.map_cons, removeSpaces_gts_cons, hbase,
            ← List.map_cons parse_generic_type p ps, List.map_map]
        have hjoin := joinSep_comma_length
          ((p :: ps).map fun q => removeSpaces (generic_to_string (parse_generic_type q)))
          (by simp)
        have hsum_le :
            (((p :: ps).map fun q =>
                removeSpaces (generic_to_string (parse_generic_type q))).map List.length).sum ≤
              ((p :: ps).map List.length).sum := by
          rw [List.map_map]
          exact List.sum_le_sum fun q hq => hrec q hq
        have hcomp :
            ((fun x => removeSpaces (generic_to_string x)) ∘ parse_generic_type) =
              fun q => removeSpaces (generic_to_string (parse_generic_type q)) := rfl
        rw [hcomp]
        simp only [List.length_append, List.length_cons, List.length_nil,
          List.length_map] at hjoin hsum ⊢
        omega

/-- Every generic argument produced by the parser reconstructs (after space
removal) to something strictly shorter than the space-filtered input. -/
theorem length_removeSpaces_gts_arg_lt {s base : List Char} {gens : List TypeDesc}
    (hp : parse_generic_type s = .mk base gens) {g : TypeDesc} (hg : g ∈ gens) :
    (removeSpaces (generic_to_string g)).length < (removeSpaces s).length := by
  rw [parse_generic_type] at hp
  split at hp
  · cases hp
    simp at hg
  · rename_i base' rest hsome
    obtain ⟨ht, -⟩ := splitFirstLt_eq hsome
    cases hp
    rw [parseArgsList_eq_map] at hg
    obtain ⟨q, hq_mem, hq_eq⟩ := List.mem_map.mp hg
    have hpieces_ne : rest ≠ [] := by
      intro h0
      rw [h0] at hq_mem
      simp [parseArgsLoop] at hq_mem
    have hdrop : rest.dropLast.length + 1 = rest.length := by
      rw [List.length_dropLast]
      have : rest.length ≠ 0 := fun h0 => hpieces_ne (List.length_eq_zero.mp h0)
      omega
    have hq_le : q.length ≤ rest.dropLast.length := by
      have := parseArgsLoop_mem_length_le rest.dropLast 0 [] q hq_mem
      simpa using this
    have hA : (removeSpaces (generic_to_string (parse_generic_type q))).length ≤
        (removeSpaces q).length :=
      length_removeSpaces_gts_parse_le q.length q le_rfl
    have hq_rs : (removeSpaces q).length ≤ q.length := removeSpaces_length_le q
    have htlen : (removeSpaces s).length = base.length + 1 + rest.length := by
      rw [ht]; simp; omega
    rw [← hq_eq]
    omega

/-- Python `type_str.endswith('[]')`. -/
def py_endswith (t s : List Char) : Bool :=
  t.isSuffixOf s

/-- Semantics of `re.search(pattern, s)` for the patterns of
`dummy_patterns`, which are all of the form `^word$` with a literal word:
without the MULTILINE flag such a search succeeds exactly when `s` is the
word itself or the word followed by one final newline. -/
def re_anchored (pat s : List Char) : Bool :=
  s == pat || s == pat ++ ['\n']

/-- The ordered `dummy_patterns` table of `infer_dummy_value`: each entry is
the literal word of the `^word$` regular expression together with the dummy
value it yields. -/
def dummy_patterns : List (List Char × List Char) :=
  [ ("int".data, "0".data),
    ("long".data, "0L".data),
    ("float".data, "0.0f".data),
    ("double".data, "0.0".data),
    ("bool".data, "false".data),
    ("string".data, "\"\"".data),
    ("decimal".data, "0m".data),
    ("char".data, "\x27a\x27".data),
    ("byte".data, "0".data),
    ("short".data, "0".data),
    ("sbyte".data, "0".data),
    ("ushort".data, "0".data),
    ("uint".data, "0u".data),
    ("ulong".data, "0UL".data),
    ("datetime".data, "DateTime.Now".data) ]

/-- The pattern loop of `infer_dummy_value` fused with the final
`return 'null'`: the first matching pattern wins, `null` when none match. -/
def match_dummy : List (List Char × List Char) → List Char → List Char
  | [], _ => "null".data
  | (pat, v) :: rest, t => if re_anchored pat t then v else match_dummy rest t

theorem pyStrip_sublist (s : List Char) : List.Sublist (pyStrip s) s := by
  unfold pyStrip
  have h1 : List.Sublist ((s.dropWhile pyIsSpace).reverse.dropWhile pyIsSpace)
      (s.dropWhile pyIsSpace).reverse := List.dropWhile_sublist _
  have h2 := h1.reverse
  rw [List.reverse_reverse] at h2
  exact h2.trans (List.dropWhile_sublist _)

theorem removeSpaces_pyStrip_length_le (s : List Char) :
    (removeSpaces (pyStrip s)).length ≤ (removeSpaces s).length :=
  ((pyStrip_sublist s).filter _).length_le

/-- Embedding of `infer_dummy_value`.  The input is stripped and
space-filtered; a trailing `[]` marker is handled first (array literal with
zero or one element, depending on whether the element dummy is `null`); then
the known generic bases `list`/`ilist`/`icollection`/`ienumerable`,
`dictionary` and `task` are checked case-insensitively; everything else,
generic or not, reaches the ordered pattern table, whose fall-through value
is `null`. -/
def infer_dummy_value (type_name : List Char) : List Char :=
  let type_str := removeSpaces (pyStrip type_name)
  if hs : py_endswith "[]".data type_str = true then
    let elem_str := type_str.dropLast.dropLast
    let elem_parsed := parse_generic_type elem_str
    let elem_type_str := generic_to_string elem_parsed
    let elem_dummy := infer_dummy_value elem_type_str
    if elem_dummy = "null".data then
      "new ".data ++ type_str ++ " \x7b \x7d".data
    else
      "new ".data ++ type_str ++ " \x7b ".data ++ elem_dummy ++ " \x7d".data
  else
    match hp : parse_generic_type type_str with
    | .mk base generics =>
      let type_lower := pyLower base
      if generics.isEmpty then
        match_dummy dummy_patterns type_lower
      else
        let full_type := generic_to_string (.mk base generics)
        if type_lower = "list".data ∨ type_lower = "ilist".data ∨
            type_lower = "icollection".data ∨ type_lower = "ienumerable".data then
          "new ".data ++ full_type ++ "()".data
        else if type_lower = "dictionary".data then
          if 2 ≤ generics.length then
            "new ".data ++ full_type ++ "()".data
          else
            "null".data
        else if type_lower = "task".data then
          match hg : generics with
          | [g0] =>
            "Task.FromResult(".data ++ infer_dummy_value (generic_to_string g0) ++ ")".data
          | _ => "Task.CompletedTask".data
        else
          match_dummy dummy_patterns type_lower
termination_by (removeSpaces (pyStrip type_name)).length
decreasing_by
  · have h5 : 2 ≤ (removeSpaces (pyStrip type_name)).length := by
      have := List.isSuffixOf_iff_suffix.mp hs
      simpa using this.length_le
    have h1 := removeSpaces_pyStrip_length_le
      (generic_to_string (parse_generic_type
        ((removeSpaces (pyStrip type_name)).dropLast.dropLast)))
    have h2 := length_removeSpaces_gts_parse_le
      ((removeSpaces (pyStrip type_name)).dropLast.dropLast).length
      ((removeSpaces (pyStrip type_name)).dropLast.dropLast) le_rfl
    have h3 := removeSpaces_length_le
      ((removeSpaces (pyStrip type_name)).dropLast.dropLast)
    have h4 : ((removeSpaces (pyStrip type_name)).dropLast.dropLast).length =
        (removeSpaces (pyStrip type_name)).length - 2 := by
      simp [List.length_dropLast]
      omega
    omega
  · have hB := @length_removeSpaces_gts_arg_lt type_str base [g0] hp g0 (by simp)
    rw [removeSpaces_idem] at hB
    have h1 := removeSpaces_pyStrip_length_le (generic_to_string g0)
    omega

section PathLemmas

/-- Array branch of `infer_dummy_value`: a trailing `[]` yields an array
literal with zero elements when the element dummy is `null`, one element
otherwise. -/
theorem infer_eq_array (s : List Char)
    (h : py_endswith "[]".data (removeSpaces (pyStrip s)) = true) :
    infer_dummy_value s =
      (if infer_dummy_value (generic_to_string (parse_generic_type
            ((removeSpaces (pyStrip s)).dropLast.dropLast))) = "null".data then
        "new ".data ++ removeSpaces (pyStrip s) ++ " \x7b \x7d".data
      else
        "new ".data ++ removeSpaces (pyStrip s) ++ " \x7b ".data ++
          infer_dummy_value (generic_to_string (parse_generic_type
            ((removeSpaces (pyStrip s)).dropLast.dropLast))) ++ " \x7d".data) := by
  rw [infer_dummy_value.eq_def]
  rw [dif_pos h]

/-- Non-array, non-generic branch of `infer_dummy_value`: the lowercased base
goes through the ordered pattern table. -/
theorem infer_eq_pattern (s base : List Char)
    (h : py_endswith "[]".data (removeSpaces (pyStrip s)) = false)
    (hp : parse_generic_type (removeSpaces (pyStrip s)) = .mk base []) :
    infer_dummy_value s = match_dummy dummy_patterns (pyLower base) := by
  rw [infer_dummy_value.eq_def]
  simp only [h, Bool.false_eq_true, dite_false]
  split
  rename_i base' generics' hp'
  rw [hp] at hp'
  cases hp'
  simp

/-- List-like branch of `infer_dummy_value`: a generic whose lowercased base
is `list`, `ilist`, `icollection` or `ienumerable` yields an empty
construction of the full reconstructed type. -/
theorem infer_eq_list (s base : List Char) (g0 : TypeDesc) (gs : List TypeDesc)
    (h : py_endswith "[]".data (removeSpaces (pyStrip s)) = false)
    (hp : parse_generic_type (removeSpaces (pyStrip s)) = .mk base (g0 :: gs))
    (hl : pyLower base = "list".data ∨ pyLower base = "ilist".data ∨
      pyLower base = "icollection".data ∨ pyLower base = "ienumerable".data) :
    infer_dummy_value s =
      "new ".data ++ generic_to_string (.mk base (g0 :: gs)) ++ "()".data := by
  rw [infer_dummy_value.eq_def]
  simp only [h, Bool.false_eq_true, dite_false]
  split
  rename_i base' generics' hp'
  rw [hp] at hp'
  cases hp'
  simp [hl]

/-- Dictionary branch of `infer_dummy_value` with at least two generic
arguments: empty construction of the full reconstructed type. -/
theorem infer_eq_dict_ge2 (s base : List Char) (g0 g1 : TypeDesc) (gs : List TypeDesc)
    (h : py_endswith "[]".data (removeSpaces (pyStrip s)) = false)
    (hp : parse_generic_type (removeSpaces (pyStrip s)) = .mk base (g0 :: g1 :: gs))
    (hl : pyLower base = "dictionary".data) :
    infer_dummy_value s =
      "new ".data ++ generic_to_string (.mk base (g0 :: g1 :: gs)) ++ "()".data := by
  rw [infer_dummy_value.eq_def]
  simp only [h, Bool.false_eq_true, dite_false]
  split
  rename_i base' generics' hp'
  rw [hp] at hp'
  cases hp'
  simp [hl]

/-- Dictionary branch of `infer_dummy_value` with exactly one generic
argument: the null sentinel. -/
theorem infer_eq_dict_one (s base : List Char) (g0 : TypeDesc)
    (h : py_endswith "[]".data (removeSpaces (pyStrip s)) = false)
    (hp : parse_generic_type (removeSpaces (pyStrip s)) = .mk base [g0])
    (hl : pyLower base = "dictionary".data) :
    infer_dummy_value s = "null".data := by
  rw [infer_dummy_value.eq_def]
  simp only [h, Bool.false_eq_true, dite_false]
  split
  rename_i base' generics' hp'
  rw [hp] at hp'
  cases hp'
  simp [hl]

/-- Task branch of `infer_dummy_value` with exactly one generic argument:
a completed task wrapping the recursively inferred dummy of that argument. -/
theorem infer_eq_task_one (s base : List Char) (g0 : TypeDesc)
    (h : py_endswith "[]".data (removeSpaces (pyStrip s)) = false)
    (hp : parse_generic_type (removeSpaces (pyStrip s)) = .mk base [g0])
    (hl : pyLower base = "task".data) :
    infer_dummy_value s =
      "Task.FromResult(".data ++ infer_dummy_value (generic_to_string g0) ++ ")".data := by
  rw [infer_dummy_value.eq_def]
  simp only [h, Bool.false_eq_true, dite_false]
  split
  rename_i base' generics' hp'
  rw [hp] at hp'
  cases hp'
  have hnl : ¬(pyLower base = "list".data ∨ pyLower base = "ilist".data ∨
      pyLower base = "icollection".data ∨ pyLower base = "ienumerable".data) := by
    simp [hl]
  have hnd : pyLower base ≠ "dictionary".data := by simp [hl]
  simp [hnl, hnd, hl]

/-- Task branch of `infer_dummy_value` with two or more generic arguments:
the pre-completed task sentinel. -/
theorem infer_eq_task_many (s base : List Char) (g0 g1 : TypeDesc) (gs : List TypeDesc)
    (h : py_endswith "[]".data (removeSpaces (pyStrip s)) = false)
    (hp : parse_generic_type (removeSpaces (pyStrip s)) = .mk base (g0 :: g1 :: gs))
    (hl : pyLower base = "task".data) :
    infer_dummy_value s = "Task.CompletedTask".data := by
  rw [infer_dummy_value.eq_def]
  simp only [h, Bool.false_eq_true, dite_false]
  split
  rename_i base' generics' hp'
  rw [hp] at hp'
  cases hp'
  have hnl : ¬(pyLower base = "list".data ∨ pyLower base = "ilist".data ∨
      pyLower base = "icollection".data ∨ pyLower base = "ienumerable".data) := by
    simp [hl]
  have hnd : pyLower base ≠ "dictionary".data := by simp [hl]
  simp [hnl, hnd, hl]

/-- Fall-through for generics with an unrecognised base: despite the
non-empty generic argument list, the lowercased base reaches the ordered
pattern table. -/
theorem infer_eq_generic_fallthrough (s base : List Char) (g0 : TypeDesc) (gs : List TypeDesc)
    (h : py_endswith "[]".data (removeSpaces (pyStrip s)) = false)
    (hp : parse_generic_type (removeSpaces (pyStrip s)) = .mk base (g0 :: gs))
    (hnl : ¬(pyLower base = "list".data ∨ pyLower base = "ilist".data ∨
      pyLower base = "icollection".data ∨ pyLower base = "ienumerable".data))
    (hnd : pyLower base ≠ "dictionary".data)
    (hnt : pyLower base ≠ "task".data) :
    infer_dummy_value s = match_dummy dummy_patterns (pyLower base) := by
  rw [infer_dummy_value.eq_def]
  simp only [h, Bool.false_eq_true, dite_false]
  split
  rename_i base' generics' hp'
  rw [hp] at hp'
  cases hp'
  simp [hnl, hnd, hnt]

end PathLemmas

section RoundTrip

/-- A character that may appear in a well-formed type base name: not an angle
bracket, not a comma, not whitespace. -/
def cleanChar (c : Char) : Bool :=
  !(c = '<' || c = '>' || c = ',' || pyIsSpace c)

mutual

/-- Well-formedness of a `TypeDesc` as produced from real source text: every
base name in the tree is non-empty and free of angle brackets, commas and
whitespace. -/
def TypeDesc.clean : TypeDesc → Bool
  | .mk b args => !b.isEmpty && b.all cleanChar && cleanList args

/-- `clean` on a list of descriptors. -/
def cleanList : List TypeDesc → Bool
  | [] => true
  | a :: as => a.clean && cleanList as

end

mutual

/-- The space-free rendering of a descriptor: like `generic_to_string` but
joining arguments with a bare comma.  For well-formed descriptors this is
exactly `generic_to_string` after space removal. -/
def nst : TypeDesc → List Char
  | .mk b [] => b
  | .mk b (a :: as) => b ++ '<' :: nstArgs (a :: as) ++ ['>']

/-- `nst` of an argument list, comma separated. -/
def nstArgs : List TypeDesc → List Char
  | [] => []
  | [a] => nst a
  | a :: b :: bs => nst a ++ ',' :: nstArgs (b :: bs)

end

/-- Bracket depth after scanning a string from a given starting depth. -/
def endDepth (d : Int) : List Char → Int
  | [] => d
  | c :: cs => endDepth (if c = '<' then d + 1 else if c = '>' then d - 1 else d) cs

/-- Scanning check: no comma is encountered at depth zero. -/
def scanOK (d : Int) : List Char → Bool
  | [] => true
  | c :: cs =>
    if c = '<' then scanOK (d + 1) cs
    else if c = '>' then scanOK (d - 1) cs
    else if c = ',' then decide (d ≠ 0) && scanOK d cs
    else scanOK d cs

theorem endDepth_append (x y : List Char) (d : Int) :
    endDepth d (x ++ y) = endDepth (endDepth d x) y := by
  induction x generalizing d with
  | nil => simp [endDepth]
  | cons c cs ih => simp [endDepth, ih]

theorem scanOK_append (x y : List Char) (d : Int) :
    scanOK d (x ++ y) = (scanOK d x && scanOK (endDepth d x) y) := by
  induction x generalizing d with
  | nil => simp [scanOK, endDepth]
  | cons c cs ih =>
    by_cases h1 : c = '<'
    · simp [scanOK, endDepth, h1, ih]
    · by_cases h2 : c = '>'
      · simp [scanOK, endDepth, h1, h2, ih]
      · by_cases h3 : c = ','
        · simp [scanOK, endDepth, h1, h2, h3, ih, Bool.and_assoc]
        · simp [scanOK, endDepth, h1, h2, h3, ih]

theorem nstArgs_eq_joinSep (as : List TypeDesc) :
    nstArgs as = joinSep [','] (as.map nst) := by
  induction as with
  | nil => simp [nstArgs, joinSep]
  | cons a as ih =>
    cases as with
    | nil => simp [nstArgs, joinSep]
    | cons b bs =>
      rw [show nstArgs (a :: b :: bs) = nst a ++ ',' :: nstArgs (b :: bs) from rfl, ih]
      simp [joinSep]

theorem dropWhile_pyIsSpace_eq_self {q : List Char}
    (hq : ∀ c ∈ q, pyIsSpace c = false) : q.dropWhile pyIsSpace = q := by
  cases q with
  | nil => rfl
  | cons a as =>
    rw [List.dropWhile_cons, if_neg (by simp [hq a (by simp)])]

theorem pyStrip_eq_self_of_noWS {p : List Char}
    (h : ∀ c ∈ p, pyIsSpace c = false) : pyStrip p = p := by
  unfold pyStrip
  rw [dropWhile_pyIsSpace_eq_self h,
    dropWhile_pyIsSpace_eq_self (fun c hc => h c (List.mem_reverse.mp hc)),
    List.reverse_reverse]

/-- The comma-splitting loop passes over a comma-safe balanced chunk,
appending it to the accumulator. -/
theorem parseArgsLoop_skip :
    ∀ (p rest cur : List Char) (d : Int), scanOK d p = true →
      parseArgsLoop (p ++ rest) d cur = parseArgsLoop rest (endDepth d p) (cur ++ p) := by
  intro p
  induction p with
  | nil => intro rest cur d _; simp [endDepth]
  | cons c cs ih =>
    intro rest cur d hok
    by_cases h1 : c = '<'
    · rw [List.cons_append, parseArgsLoop]
      rw [if_pos h1]
      rw [scanOK, if_pos h1] at hok
      rw [ih rest (cur ++ [c]) (d + 1) hok]
      simp [endDepth, h1]
    · by_cases h2 : c = '>'
      · rw [List.cons_append, parseArgsLoop]
        rw [if_neg h1, if_pos h2]
        rw [scanOK, if_neg h1, if_pos h2] at hok
        rw [ih rest (cur ++ [c]) (d - 1) hok]
        simp [endDepth, h1, h2]
      · by_cases h3 : c = ','
        · rw [scanOK, if_neg h1, if_neg h2, if_pos h3] at hok
          simp only [Bool.and_eq_true, decide_eq_true_eq] at hok
          obtain ⟨hd, hok'⟩ := hok
          rw [List.cons_append, parseArgsLoop]
          rw [if_neg h1, if_neg h2, if_neg (by simp [h3, hd])]
          rw [ih rest (cur ++ [c]) d hok']
          simp [endDepth, h1, h2, h3]
        · rw [scanOK, if_neg h1, if_neg h2, if_neg h3] at hok
          rw [List.cons_append, parseArgsLoop]
          rw [if_neg h1, if_neg h2, if_neg (by simp [h3])]
          rw [ih rest (cur ++ [c]) d hok]
          simp [endDepth, h1, h2, h3]

/-- On a comma-joined list of non-empty, whitespace-free, balanced,
comma-safe chunks, the comma-splitting loop returns exactly the chunks. -/
theorem parseArgsLoop_join :
    ∀ ps : List (List Char),
      (∀ p ∈ ps, p ≠ [] ∧ scanOK 0 p = true ∧ endDepth 0 p = 0 ∧
        (∀ c ∈ p, pyIsSpace c = false)) →
      parseArgsLoop (joinSep [','] ps) 0 [] = ps := by
  intro ps
  induction ps with
  | nil => intro _; simp [joinSep, parseArgsLoop]
  | cons p ps ih =>
    intro hps
    obtain ⟨hne, hok, hed, hws⟩ := hps p (by simp)
    cases ps with
    | nil =>
      have hskip := parseArgsLoop_skip p [] [] 0 hok
      rw [List.append_nil, List.nil_append] at hskip
      rw [show joinSep [','] [p] = p by simp [joinSep], hskip, hed]
      simp only [parseArgsLoop]
      rw [if_neg (by simpa using hne), pyStrip_eq_self_of_noWS hws]
    | cons q qs =>
      have hskip := parseArgsLoop_skip p (',' :: joinSep [','] (q :: qs)) [] 0 hok
      rw [List.nil_append] at hskip
      rw [show joinSep [','] (p :: q :: qs) = p ++ ',' :: joinSep [','] (q :: qs) by
        simp [joinSep]]
      rw [hskip, hed]
      simp only [parseArgsLoop]
      rw [if_neg (by decide), if_neg (by decide), if_pos (by simp)]
      rw [pyStrip_eq_self_of_noWS hws]
      rw [ih (fun r hr => hps r (by simp [hr]))]

theorem splitFirstLt_eq_none {t : List Char} (h : '<' ∉ t) :
    splitFirstLt t = none := by
  induction t with
  | nil => simp [splitFirstLt]
  | cons c cs ih =>
    rw [splitFirstLt, if_neg (by simp at h; exact Ne.symm (by simpa using h.1))]
    rw [ih (by simp at h; exact h.2)]

theorem splitFirstLt_append {b r : List Char} (h : '<' ∉ b) :
    splitFirstLt (b ++ '<' :: r) = some (b, r) := by
  induction b with
  | nil => simp [splitFirstLt]
  | cons c cs ih =>
    rw [List.cons_append, splitFirstLt,
      if_neg (by simp at h; exact Ne.symm (by simpa using h.1))]
    rw [ih (by simp at h; exact h.2)]

theorem cleanList_iff (as : List TypeDesc) :
    cleanList as = true ↔ ∀ a ∈ as, a.clean = true := by
  induction as with
  | nil => simp [cleanList]
  | cons a as ih => simp [cleanList, ih]

theorem clean_mk {b : List Char} {args : List TypeDesc} :
    (TypeDesc.mk b args).clean = true ↔
      b ≠ [] ∧ (∀ c ∈ b, cleanChar c = true) ∧ ∀ a ∈ args, a.clean = true := by
  rw [TypeDesc.clean]
  simp [cleanList_iff, List.all_eq_true, List.isEmpty_iff]
  tauto

theorem cleanChar_spec {c : Char} (h : cleanChar c = true) :
    c ≠ '<' ∧ c ≠ '>' ∧ c ≠ ',' ∧ pyIsSpace c = false := by
  simp [cleanChar] at h
  exact ⟨by tauto, by tauto, by tauto, by tauto⟩

theorem scanOK_of_plain {b : List Char} (h : ∀ c ∈ b, cleanChar c = true)
    (dd : Int) : scanOK dd b = true := by
  induction b generalizing dd with
  | nil => simp [scanOK]
  | cons c cs ih =>
    obtain ⟨h1, h2, h3, -⟩ := cleanChar_spec (h c (by simp))
    rw [scanOK, if_neg h1, if_neg h2, if_neg h3]
    exact ih (fun x hx => h x (by simp [hx])) dd

theorem endDepth_of_plain {b : List Char} (h : ∀ c ∈ b, cleanChar c = true)
    (dd : Int) : endDepth dd b = dd := by
  induction b generalizing dd with
  | nil => simp [endDepth]
  | cons c cs ih =>
    obtain ⟨h1, h2, -, -⟩ := cleanChar_spec (h c (by simp))
    rw [endDepth, if_neg h1, if_neg h2]
    exact ih (fun x hx => h x (by simp [hx])) dd

theorem lt_not_mem_of_plain {b : List Char} (h : ∀ c ∈ b, cleanChar c = true) :
    '<' ∉ b := by
  intro hmem
  exact (cleanChar_spec (h _ hmem)).1 rfl

theorem mem_joinSep {c : Char} {sep : List Char} {ps : List (List Char)}
    (h : c ∈ joinSep sep ps) : c ∈ sep ∨ ∃ p ∈ ps, c ∈ p := by
  induction ps with
  | nil => simp [joinSep] at h
  | cons p ps ih =>
    cases ps with
    | nil =>
      right
      exact ⟨p, by simp, by simpa [joinSep] using h⟩
    | cons q qs =>
      rw [show joinSep sep (p :: q :: qs) = p ++ sep ++ joinSep sep (q :: qs) from rfl] at h
      simp only [List.mem_append] at h
      rcases h with (h | h) | h
      · exact Or.inr ⟨p, by simp, h⟩
      · exact Or.inl h
      · rcases ih h with h | ⟨r, hr, hc⟩
        · exact Or.inl h
        · exact Or.inr ⟨r, by simp [hr], hc⟩

theorem scanOK_joinSep {ps : List (List Char)} {e : Int}
    (h : ∀ p ∈ ps, scanOK e p = true ∧ endDepth e p = e) (he : e ≠ 0) :
    scanOK e (joinSep [','] ps) = true ∧ endDepth e (joinSep [','] ps) = e := by
  induction ps with
  | nil => simp [joinSep, scanOK, endDepth]
  | cons p ps ih =>
    cases ps with
    | nil => simpa [joinSep] using h p (by simp)
    | cons q qs =>
      obtain ⟨hok, hed⟩ := h p (by simp)
      obtain ⟨hok', hed'⟩ := ih (fun r hr => h r (by simp [hr]))
      rw [show joinSep [','] (p :: q :: qs) = p ++ [','] ++ joinSep [','] (q :: qs) from rfl]
      have h1 : scanOK e [','] = true := by simp [scanOK, he]
      have h2 : endDepth e [','] = e := by simp [endDepth]
      constructor
      · rw [scanOK_append, scanOK_append, endDepth_append, hok, hed, h1, h2, hok']
        rfl
      · rw [endDepth_append, endDepth_append, hed, h2, hed']

theorem endDepth_joinSep {ps : List (List Char)}
    (h : ∀ p ∈ ps, ∀ dd : Int, endDepth dd p = dd) (e : Int) :
    endDepth e (joinSep [','] ps) = e := by
  induction ps generalizing e with
  | nil => simp [joinSep, endDepth]
  | cons p ps ih =>
    cases ps with
    | nil => simpa [joinSep] using h p (by simp) e
    | cons q qs =>
      rw [show joinSep [','] (p :: q :: qs) = p ++ [','] ++ joinSep [','] (q :: qs) from rfl]
      rw [endDepth_append, endDepth_append, h p (by simp) e]
      rw [show endDepth e [','] = e by simp [endDepth]]
      exact ih (fun r hr => h r (by simp [hr])) e

theorem removeSpaces_eq_self_of_noWS {l : List Char}
    (h : ∀ c ∈ l, pyIsSpace c = false) : removeSpaces l = l := by
  apply List.filter_eq_self.mpr
  intro c hc
  have := h c hc
  simp only [pyIsSpace] at this
  simp only [decide_eq_true_eq]
  intro h0
  subst h0
  simp at this

theorem nst_shape (b : List Char) (a : TypeDesc) (as : List TypeDesc) :
    nst (.mk b (a :: as)) = b ++ '<' :: (nstArgs (a :: as) ++ ['>']) := by
  rw [nst]
  simp

/-- The space-free rendering of a well-formed descriptor is non-empty,
whitespace-free, comma-safe from every non-negative depth, and
bracket-balanced. -/
theorem nst_props : ∀ (n : Nat) (d : TypeDesc), sizeOf d ≤ n → d.clean = true →
    nst d ≠ [] ∧ (∀ c ∈ nst d, pyIsSpace c = false) ∧
      (∀ dd : Int, 0 ≤ dd → scanOK dd (nst d) = true) ∧
      (∀ dd : Int, endDepth dd (nst d) = dd) := by
  intro n
  induction n with
  | zero =>
    intro d hd
    obtain ⟨b, args⟩ := d
    simp at hd
  | succ n ih =>
    intro d hd hc
    obtain ⟨b, args⟩ := d
    obtain ⟨hb_ne, hb_plain, hargs⟩ := clean_mk.mp hc
    cases args with
    | nil =>
      refine ⟨by rw [nst]; exact hb_ne, ?_, ?_, ?_⟩
      · intro c hcm
        rw [nst] at hcm
        exact (cleanChar_spec (hb_plain c hcm)).2.2.2
      · intro dd _
        rw [nst]
        exact scanOK_of_plain hb_plain dd
      · intro dd
        rw [nst]
        exact endDepth_of_plain hb_plain dd
    | cons a as =>
      have hmem_size : ∀ x ∈ a :: as, sizeOf x ≤ n := by
        intro x hx
        have h1 := List.sizeOf_lt_of_mem hx
        have h2 : sizeOf (TypeDesc.mk b (a :: as)) = 1 + sizeOf b + sizeOf (a :: as) := by
          simp
        omega
      have hx_props := fun x hx => ih x (hmem_size x hx) (hargs x hx)
      have hpieces :
          ∀ p ∈ (a :: as).map nst, p ≠ [] ∧ (∀ c ∈ p, pyIsSpace c = false) ∧
            (∀ dd : Int, 0 ≤ dd → scanOK dd p = true) ∧
            (∀ dd : Int, endDepth dd p = dd) := by
        intro p hp
        obtain ⟨x, hx, hxe⟩ := List.mem_map.mp hp
        exact hxe ▸ hx_props x hx
      refine ⟨by rw [nst_shape]; simp, ?_, ?_, ?_⟩
      · intro c hcm
        rw [nst_shape, nstArgs_eq_joinSep] at hcm
        rcases List.mem_append.mp hcm with h | h
        · exact (cleanChar_spec (hb_plain c h)).2.2.2
        · rcases List.mem_cons.mp h with h | h
          · subst h; rfl
          · rcases List.mem_append.mp h with h | h
            · rcases mem_joinSep h with h | ⟨p, hp, hcp⟩
              · simp at h; subst h; rfl
              · exact (hpieces p hp).2.1 c hcp
            · simp at h; subst h; rfl
      · intro dd hdd
        rw [nst_shape, nstArgs_eq_joinSep, scanOK_append, endDepth_of_plain hb_plain,
          scanOK_of_plain hb_plain]
        have hsj := @scanOK_joinSep ((a :: as).map nst) (dd + 1)
          (fun p hp => ⟨(hpieces p hp).2.2.1 (dd + 1) (by omega), (hpieces p hp).2.2.2 (dd + 1)⟩)
          (by omega)
        rw [show scanOK dd ('<' :: (joinSep [','] ((a :: as).map nst) ++ ['>'])) =
          scanOK (dd + 1) (joinSep [','] ((a :: as).map nst) ++ ['>']) by simp [scanOK]]
        rw [scanOK_append, hsj.1, hsj.2]
        simp [scanOK]
      · intro dd
        rw [nst_shape, nstArgs_eq_joinSep, endDepth_append, endDepth_of_plain hb_plain]
        rw [show endDepth dd ('<' :: (joinSep [','] ((a :: as).map nst) ++ ['>'])) =
          endDepth (dd + 1) (joinSep [','] ((a :: as).map nst) ++ ['>']) by simp [endDepth]]
        rw [endDepth_append,
          endDepth_joinSep (fun p hp => (hpieces p hp).2.2.2) (dd + 1)]
        simp [endDepth]

/-- Characters of a clean base are not spaces. -/
theorem plain_noSpace {b : List Char} (h : ∀ c ∈ b, cleanChar c = true) :
    ∀ c ∈ b, pyIsSpace c = false :=
  fun c hc => (cleanChar_spec (h c hc)).2.2.2

/-- Parsing the space-free rendering of a well-formed descriptor recovers the
descriptor. -/
theorem parse_nst : ∀ (n : Nat) (d : TypeDesc), sizeOf d ≤ n → d.clean = true →
    parse_generic_type (nst d) = d := by
  intro n
  induction n with
  | zero =>
    intro d hd
    obtain ⟨b, args⟩ := d
    simp at hd
  | succ n ih =>
    intro d hd hc
    obtain ⟨b, args⟩ := d
    obtain ⟨hb_ne, hb_plain, hargs⟩ := clean_mk.mp hc
    cases args with
    | nil =>
      have hrs : removeSpaces (nst (.mk b [])) = b :=
        removeSpaces_eq_self_of_noWS (plain_noSpace hb_plain)
      rw [parse_generic_type]
      split
      · rename_i hnone
        rw [hrs]
      · rename_i base' rest' hsome
        rw [hrs, splitFirstLt_eq_none (lt_not_mem_of_plain hb_plain)] at hsome
        exact absurd hsome (by simp)
    | cons a as =>
      have hmem_size : ∀ x ∈ a :: as, sizeOf x ≤ n := by
        intro x hx
        have h1 := List.sizeOf_lt_of_mem hx
        have h2 : sizeOf (TypeDesc.mk b (a :: as)) = 1 + sizeOf b + sizeOf (a :: as) := by
          simp
        omega
      have hx_props := fun x hx => nst_props (sizeOf x) x le_rfl (hargs x hx)
      have hnoWS : ∀ c ∈ nst (TypeDesc.mk b (a :: as)), pyIsSpace c = false :=
        (nst_props (sizeOf (TypeDesc.mk b (a :: as))) _ le_rfl hc).2.1
      have hrs : removeSpaces (nst (TypeDesc.mk b (a :: as))) =
          nst (TypeDesc.mk b (a :: as)) :=
        removeSpaces_eq_self_of_noWS hnoWS
      rw [parse_generic_type]
      split
      · rename_i hnone
        rw [hrs, nst_shape,
          splitFirstLt_append (lt_not_mem_of_plain hb_plain)] at hnone
        exact absurd hnone (by simp)
      · rename_i base' rest' hsome
        rw [hrs, nst_shape,
          splitFirstLt_append (lt_not_mem_of_plain hb_plain)] at hsome
        have hb' : base' = b := by
          have := hsome
          simp at this
          exact this.1.symm
        have hr' : rest' = nstArgs (a :: as) ++ ['>'] := by
          have := hsome
          simp at this
          exact this.2.symm
        subst hb' hr'
        rw [List.dropLast_concat]
        rw [nstArgs_eq_joinSep]
        rw [parseArgsLoop_join ((a :: as).map nst) ?_]
        · rw [parseArgsList_eq_map, List.map_map]
          congr 1
          have : ∀ x ∈ a :: as, (parse_generic_type ∘ nst) x = id x := by
            intro x hx
            simp only [Function.comp, id]
            exact ih x (hmem_size x hx) (hargs x hx)
          rw [List.map_congr_left this, List.map_id]
        · intro p hp
          obtain ⟨x, hx, hxe⟩ := List.mem_map.mp hp
          obtain ⟨h1, h2, h3, h4⟩ := hx_props x hx
          exact hxe ▸ ⟨h1, h3 0 le_rfl, h4 0, h2⟩

/-- `parse_generic_type` depends on its input only through space removal. -/
theorem parse_eq_of_removeSpaces_eq {s t : List Char}
    (h : removeSpaces s = removeSpaces t) :
    parse_generic_type s = parse_generic_type t := by
  rw [parse_generic_type, parse_generic_type]
  split <;> split
  · rename_i hs ht
    rw [h]
  · rename_i hs bb rr ht
    rw [h, ht] at hs
    exact absurd hs (by simp)
  · rename_i bb rr hs ht
    rw [h, ht] at hs
    exact absurd hs (by simp)
  · rename_i b1 r1 h1 b2 r2 h2
    rw [h, h2] at h1
    simp at h1
    rw [h1.1, h1.2]

/-- The reconstruction of a well-formed descriptor space-filters to its
space-free rendering. -/
theorem removeSpaces_gts_eq_nst : ∀ (n : Nat) (d : TypeDesc), sizeOf d ≤ n →
    d.clean = true → removeSpaces (generic_to_string d) = nst d := by
  intro n
  induction n with
  | zero =>
    intro d hd
    obtain ⟨b, args⟩ := d
    simp at hd
  | succ n ih =>
    intro d hd hc
    obtain ⟨b, args⟩ := d
    obtain ⟨hb_ne, hb_plain, hargs⟩ := clean_mk.mp hc
    have hb : removeSpaces b = b :=
      removeSpaces_eq_self_of_noWS (plain_noSpace hb_plain)
    cases args with
    | nil =>
      rw [removeSpaces_gts_nil, hb, nst]
    | cons a as =>
      have hmem_size : ∀ x ∈ a :: as, sizeOf x ≤ n := by
        intro x hx
        have h1 := List.sizeOf_lt_of_mem hx
        have h2 : sizeOf (TypeDesc.mk b (a :: as)) = 1 + sizeOf b + sizeOf (a :: as) := by
          simp
        omega
      rw [removeSpaces_gts_cons, hb, nst_shape, nstArgs_eq_joinSep]
      have : (a :: as).map (fun x => removeSpaces (generic_to_string x)) =
          (a :: as).map nst :=
        List.map_congr_left fun x hx => ih x (hmem_size x hx) (hargs x hx)
      rw [this]
      simp

/-- Round trip: reconstructing a well-formed descriptor and re-parsing the
resulting string yields the descriptor back. -/
theorem parse_gts_roundtrip (d : TypeDesc) (hc : d.clean = true) :
    parse_generic_type (generic_to_string d) = d := by
  have h1 : removeSpaces (generic_to_string d) = nst d :=
    removeSpaces_gts_eq_nst (sizeOf d) d le_rfl hc
  have h2 : removeSpaces (nst d) = nst d :=
    removeSpaces_eq_self_of_noWS (nst_props (sizeOf d) d le_rfl hc).2.1
  rw [parse_eq_of_removeSpaces_eq (h1.trans h2.symm)]
  exact parse_nst (sizeOf d) d le_rfl hc

end RoundTrip

section Arrange

/-- A constructor as extracted by `extract_methods`: the list of its raw
parameter type strings (`{'params': [...]}`). -/
structure CtorInfo where
  params : List (List Char)

/-- Python `max(constructors, key=...)`: walk the list keeping the current
maximum and replacing it only on a strictly greater key, so the first of
several maxima wins. -/
def pyMaxBy (f : CtorInfo → Nat) : CtorInfo → List CtorInfo → CtorInfo
  | best, [] => best
  | best, c :: cs => pyMaxBy f (if f best < f c then c else best) cs

/-- `ctor = max(constructors, key=lambda c: len(c['params']))` on the
non-empty list `c :: cs`. -/
def select_ctor (c : CtorInfo) (cs : List CtorInfo) : CtorInfo :=
  pyMaxBy (fun k => k.params.length) c cs

/-- Python `f"mock{i}"`'s index rendering. -/
def natToChars (n : Nat) : List Char :=
  (Nat.repr n).data

/-- `mock_var = f"mock{i}"`. -/
def mock_var (i : Nat) : List Char :=
  "mock".data ++ natToChars i

/-- The mock declaration line emitted for an interface-looking parameter. -/
def mock_decl (i : Nat) (param_type : List Char) : List Char :=
  "            var ".data ++ mock_var i ++ " = new Mock<".data ++ param_type ++ ">();".data

/-- The placeholder setup line emitted for an interface-looking parameter; it
returns the parameter type's inferred dummy value. -/
def setup_line (i : Nat) (param_type : List Char) : List Char :=
  "            ".data ++ mock_var i ++ ".Setup(x => x.Get".data ++ param_type.drop 1 ++
    "Default(It.IsAny<object>())).Returns(".data ++ infer_dummy_value param_type ++
    ");  // TODO: Customize setup for ".data ++ param_type

/-- Python `param_type.startswith('I')` (the capital letter). -/
def startswithI : List Char → Bool
  | 'I' :: _ => true
  | _ => false

/-- The `for i, param_type in enumerate(params)` loop of `compute_arrange`:
returns the accumulated `(args_list, mock_decls, setup_lines)`. -/
def arrange_loop : Nat → List (List Char) →
    List (List Char) × List (List Char) × List (List Char)
  | _, [] => ([], [], [])
  | i, p :: ps =>
    let rest := arrange_loop (i + 1) ps
    if startswithI p then
      ((mock_var i ++ ".Object".data) :: rest.1,
        mock_decl i p :: rest.2.1,
        setup_line i p :: rest.2.2)
    else
      (infer_dummy_value p :: rest.1, rest.2.1, rest.2.2)

/-- Embedding of `compute_arrange`: header, greedy constructor selection,
mock declarations and setup lines for interface-looking parameters, then the
target construction with the collected arguments (parameterless form when
there are no constructors or no arguments). -/
def compute_arrange (class_name : List Char) (constructors : List CtorInfo) : List Char :=
  let header := "            // Arrange\n".data
  match constructors with
  | [] => header ++ "            var target = new ".data ++ class_name ++ "();\n".data
  | c :: cs =>
    let ctor := select_ctor c cs
    let r := arrange_loop 0 ctor.params
    let arrange1 :=
      if r.2.1.isEmpty then header
      else
        header ++ joinSep ['\n'] r.2.1 ++ ['\n'] ++
          (if r.2.2.isEmpty then [] else joinSep ['\n'] r.2.2 ++ ['\n'])
    let ctor_args := joinSep ", ".data r.1
    if ctor_args.isEmpty then
      arrange1 ++ "            var target = new ".data ++ class_name ++ "();\n".data
    else
      arrange1 ++ "            var target = new ".data ++ class_name ++ "(".data ++
        ctor_args ++ ");\n".data

theorem pyMaxBy_mem (f : CtorInfo → Nat) :
    ∀ (l : List CtorInfo) (best : CtorInfo), pyMaxBy f best l ∈ best :: l := by
  intro l
  induction l with
  | nil => intro best; simp [pyMaxBy]
  | cons c cs ih =>
    intro best
    rw [pyMaxBy]
    by_cases hlt : f best < f c
    · rw [if_pos hlt]
      have := ih c
      rcases List.mem_cons.mp this with h | h
      · simp [h]
      · simp [h]
    · rw [if_neg hlt]
      have := ih best
      rcases List.mem_cons.mp this with h | h
      · simp [h]
      · simp [h]

theorem pyMaxBy_ge (f : CtorInfo → Nat) :
    ∀ (l : List CtorInfo) (best : CtorInfo) (x : CtorInfo), x ∈ best :: l →
      f x ≤ f (pyMaxBy f best l) := by
  intro l
  induction l with
  | nil =>
    intro best x hx
    simp at hx
    rw [hx]
    simp [pyMaxBy]
  | cons c cs ih =>
    intro best x hx
    rw [pyMaxBy]
    by_cases hlt : f best < f c
    · rw [if_pos hlt]
      rcases List.mem_cons.mp hx with h | h
      · calc f x = f best := by rw [h]
          _ ≤ f c := le_of_lt hlt
          _ ≤ f (pyMaxBy f c cs) := ih c c (by simp)
      · exact ih c x h
    · rw [if_neg hlt]
      rcases List.mem_cons.mp hx with h | h
      · exact ih best x (by simp [h])
      · rcases List.mem_cons.mp h with h2 | h2
        · calc f x = f c := by rw [h2]
            _ ≤ f best := le_of_not_lt hlt
            _ ≤ f (pyMaxBy f best cs) := ih best best (by simp)
        · exact ih best x (by simp [h2])

/-- `pyMaxBy` returns the first of the maxima: every earlier element is
strictly smaller. -/
theorem pyMaxBy_first (f : CtorInfo → Nat) :
    ∀ (l : List CtorInfo) (best : CtorInfo),
      ∃ pre post, best :: l = pre ++ pyMaxBy f best l :: post ∧
        ∀ x ∈ pre, f x < f (pyMaxBy f best l) := by
  intro l
  induction l with
  | nil =>
    intro best
    exact ⟨[], [], by simp [pyMaxBy], by simp⟩
  | cons c cs ih =>
    intro best
    rw [pyMaxBy]
    by_cases hlt : f best < f c
    · rw [if_pos hlt]
      obtain ⟨pre, post, heq, hpre⟩ := ih c
      refine ⟨best :: pre, post, by simp [heq], ?_⟩
      intro x hx
      rcases List.mem_cons.mp hx with h | h
      · calc f x = f best := by rw [h]
          _ < f c := hlt
          _ ≤ f (pyMaxBy f c cs) := pyMaxBy_ge f cs c c (by simp)
      · exact hpre x h
    · rw [if_neg hlt]
      obtain ⟨pre, post, heq, hpre⟩ := ih best
      cases pre with
      | nil =>
        simp at heq
        refine ⟨[], c :: cs, ?_, by simp⟩
        rw [← heq.1]
        simp
      | cons p0 pre' =>
        rw [List.cons_append] at heq
        injection heq with h1 h2
        refine ⟨best :: c :: pre', post, ?_, ?_⟩
        · rw [List.cons_append, List.cons_append, ← h2]
        · intro x hx
          rcases List.mem_cons.mp hx with h | h
          · rw [h]
            apply hpre
            rw [← h1]
            simp
          · rcases List.mem_cons.mp h with h2' | h2'
            · rw [h2']
              have hb : f best < f (pyMaxBy f best cs) := by
                apply hpre
                rw [← h1]
                simp
              exact lt_of_le_of_lt (le_of_not_lt hlt) hb
            · exact hpre x (by simp [h2'])

theorem arrange_loop_args_length :
    ∀ (ps : List (List Char)) (k : Nat), (arrange_loop k ps).1.length = ps.length := by
  intro ps
  induction ps with
  | nil => intro k; simp [arrange_loop]
  | cons p ps ih =>
    intro k
    by_cases hsp : startswithI p = true
    · simp [arrange_loop, hsp, ih]
    · simp [arrange_loop, hsp, ih]

/-- The argument passed positionally for parameter `i`: the mock's `.Object`
accessor for interface-looking parameters, the inferred dummy value
otherwise. -/
theorem arrange_loop_args_get :
    ∀ (ps : List (List Char)) (k i : Nat) (h : i < ps.length)
      (h2 : i < (arrange_loop k ps).1.length),
      (arrange_loop k ps).1[i] =
        if startswithI ps[i] then mock_var (k + i) ++ ".Object".data
        else infer_dummy_value ps[i] := by
  intro ps
  induction ps with
  | nil => intro k i h _; simp at h
  | cons p ps ih =>
    intro k i h h2
    by_cases hsp : startswithI p = true
    · cases i with
      | zero => simp [arrange_loop, hsp]
      | succ j =>
        have hj : j < ps.length := by simpa using h
        have hj2 : j < (arrange_loop (k + 1) ps).1.length := by
          rw [arrange_loop_args_length]; exact hj
        have hrec := ih (k + 1) j hj hj2
        rw [show (k + 1) + j = k + (j + 1) by omega] at hrec
        simp only [arrange_loop, hsp, if_true, List.getElem_cons_succ]
        exact hrec
    · cases i with
      | zero => simp [arrange_loop, hsp]
      | succ j =>
        have hj : j < ps.length := by simpa using h
        have hj2 : j < (arrange_loop (k + 1) ps).1.length := by
          rw [arrange_loop_args_length]; exact hj
        have hrec := ih (k + 1) j hj hj2
        rw [show (k + 1) + j = k + (j + 1) by omega] at hrec
        simp only [arrange_loop, hsp, if_false, List.getElem_cons_succ]
        exact hrec

/-- For an interface-looking parameter the loop emits the mock declaration
and the placeholder setup line. -/
theorem arrange_loop_mock_mem :
    ∀ (ps : List (List Char)) (k i : Nat) (h : i < ps.length),
      startswithI ps[i] = true →
        mock_decl (k + i) ps[i] ∈ (arrange_loop k ps).2.1 ∧
        setup_line (k + i) ps[i] ∈ (arrange_loop k ps).2.2 := by
  intro ps
  induction ps with
  | nil => intro k i h; simp at h
  | cons p ps ih =>
    intro k i h hI
    cases i with
    | zero =>
      simp only [List.getElem_cons_zero] at hI ⊢
      simp only [arrange_loop, hI, if_true]
      simp
    | succ j =>
      have hj : j < ps.length := by simpa using h
      have hI' : startswithI ps[j] = true := by simpa using hI
      have hrec := ih (k + 1) j hj hI'
      rw [show (k + 1) + j = k + (j + 1) by omega] at hrec
      simp only [List.getElem_cons_succ]
      by_cases hsp : startswithI p = true
      · simp only [arrange_loop, hsp, if_true]
        exact ⟨by simp [hrec.1], by simp [hrec.2]⟩
      · simp only [arrange_loop, hsp, if_false]
        exact ⟨by simp [hrec.1], by simp [hrec.2]⟩

end Arrange

section Claims

theorem infer_task_bare : infer_dummy_value "Task".data = "null".data := by
  rw [infer_eq_pattern "Task".data "Task".data (by decide)
    (by simp [parse_generic_type, parseArgsList, parseArgsLoop, removeSpaces,
      splitFirstLt, pyStrip, pyIsSpace])]
  decide

/-- C1: a task-like type description (case-insensitive base "task") with
exactly one generic argument yields `Task.FromResult(...)` around the
recursively inferred dummy of that argument — but, contrary to the claim, a
bare `Task` (zero generic arguments) falls through the pattern table to the
null sentinel; `Task.CompletedTask` is produced only when a task-like base
carries two or more generic arguments. -/
theorem claim_C1 :
    (∀ (s base : List Char) (g0 : TypeDesc),
      py_endswith "[]".data (removeSpaces (pyStrip s)) = false →
      parse_generic_type (removeSpaces (pyStrip s)) = .mk base [g0] →
      pyLower base = "task".data →
      infer_dummy_value s =
        "Task.FromResult(".data ++ infer_dummy_value (generic_to_string g0) ++ ")".data) ∧
    infer_dummy_value "Task".data = "null".data ∧
    (∀ (s base : List Char) (g0 g1 : TypeDesc) (gs : List TypeDesc),
      py_endswith "[]".data (removeSpaces (pyStrip s)) = false →
      parse_generic_type (removeSpaces (pyStrip s)) = .mk base (g0 :: g1 :: gs) →
      pyLower base = "task".data →
      infer_dummy_value s = "Task.CompletedTask".data) :=
  ⟨infer_eq_task_one, infer_task_bare, infer_eq_task_many⟩

/-- C1 witness: `Task<int>` wraps the dummy of `int`; `Task<int,bool>` gives
the pre-completed sentinel. -/
theorem claim_C1_witness :
    infer_dummy_value "Task<int>".data =
      "Task.FromResult(".data ++
        infer_dummy_value (generic_to_string (TypeDesc.mk "int".data [])) ++ ")".data ∧
    infer_dummy_value "Task<int,bool>".data = "Task.CompletedTask".data := by
  constructor
  · exact claim_C1.1 "Task<int>".data "Task".data (.mk "int".data []) (by decide)
      (by simp [parse_generic_type, parseArgsList, parseArgsLoop, removeSpaces,
        splitFirstLt, pyStrip, pyIsSpace]) (by decide)
  · exact claim_C1.2.2 "Task<int,bool>".data "Task".data (.mk "int".data [])
      (.mk "bool".data []) [] (by decide)
      (by simp [parse_generic_type, parseArgsList, parseArgsLoop, removeSpaces,
        splitFirstLt, pyStrip, pyIsSpace]) (by decide)

/-- C1 counterexample: the claim's zero-argument case is wrong on the code —
`inferDummyValue("Task")` is the null sentinel, not the pre-completed-task
sentinel. -/
theorem claim_C1_counterexample :
    infer_dummy_value "Task".data = "null".data ∧
    "null".data ≠ "Task.CompletedTask".data :=
  ⟨infer_task_bare, by decide⟩

/-- C2: the claim (and the code's own comment "Unrecognized generics fall
through to 'null'") says a generic with an unrecognised base always yields
the null sentinel, but a generic whose base matches a primitive pattern,
such as `Int<Foo>`, falls through the pattern table and yields `0`. -/
theorem claim_C2 : infer_dummy_value "Int<Foo>".data = "0".data := by
  rw [infer_eq_generic_fallthrough "Int<Foo>".data "Int".data (.mk "Foo".data []) []
    (by decide)
    (by simp [parse_generic_type, parseArgsList, parseArgsLoop, removeSpaces,
      splitFirstLt, pyStrip, pyIsSpace])
    (by decide) (by decide) (by decide)]
  decide

/-- C3 (amended): reconstructing a `TypeDescriptor` whose every base name is
non-empty and free of angle brackets, commas and whitespace — which covers
every descriptor arising from real source text — and re-parsing the result
yields the identical descriptor. -/
theorem claim_C3 (d : TypeDesc) (hc : d.clean = true) :
    parse_generic_type (generic_to_string d) = d :=
  parse_gts_roundtrip d hc

/-- C3 witness: round trip on the descriptor of `Dictionary<string, int>`. -/
theorem claim_C3_witness :
    parse_generic_type (generic_to_string
      (TypeDesc.mk "Dictionary".data [TypeDesc.mk "string".data [], TypeDesc.mk "int".data []])) =
      TypeDesc.mk "Dictionary".data [TypeDesc.mk "string".data [], TypeDesc.mk "int".data []] :=
  claim_C3 _ (by decide)

/-- C3 counterexample: for an arbitrary `TypeDescriptor` the round trip can
fail — a base containing `<` reconstructs to `a<b`, which re-parses as base
`a` with argument `b` (and the argument is even dropped because the parser
discards the final character). -/
theorem claim_C3_counterexample :
    parse_generic_type (generic_to_string (TypeDesc.mk "a<b".data [])) =
      TypeDesc.mk "a".data [] ∧
    TypeDesc.mk "a".data [] ≠ TypeDesc.mk "a<b".data [] := by
  constructor
  · rw [show generic_to_string (TypeDesc.mk "a<b".data []) = "a<b".data by decide]
    simp [parse_generic_type, parseArgsList, parseArgsLoop, removeSpaces,
      splitFirstLt, pyStrip, pyIsSpace]
  · intro h
    injection h with h1 h2
    simp at h1

/-- C4: both `parse_generic_type` and `infer_dummy_value` are total functions
of their input string — they terminate and return a value on every input,
including strings with unbalanced angle brackets.  (Totality is witnessed by
the definitions themselves: both are accepted by well-founded recursion on
the space-filtered input length, with the array and task recursions strictly
decreasing that measure.) -/
theorem claim_C4 : ∀ s : List Char,
    (∃ d : TypeDesc, parse_generic_type s = d) ∧
    ∃ v : List Char, infer_dummy_value s = v :=
  fun _ => ⟨⟨_, rfl⟩, ⟨_, rfl⟩⟩

/-- C5: `infer_dummy_value` is pure and deterministic — it is a function of
the type description alone, so equal inputs give equal outputs regardless of
any call history (the shallow embedding has no state to vary). -/
theorem claim_C5 : ∀ t1 t2 : List Char, t1 = t2 →
    infer_dummy_value t1 = infer_dummy_value t2 := by
  intro t1 t2 h
  rw [h]

/-- C5 witness: two calls on `int` agree. -/
theorem claim_C5_witness :
    infer_dummy_value "int".data = infer_dummy_value "int".data :=
  claim_C5 "int".data "int".data rfl

theorem infer_int_array : infer_dummy_value "int[]".data = "new int[] \x7b 0 \x7d".data := by
  rw [infer_eq_array "int[]".data (by decide)]
  rw [show (removeSpaces (pyStrip "int[]".data)).dropLast.dropLast = "int".data by decide]
  rw [show parse_generic_type "int".data = TypeDesc.mk "int".data [] by
    simp [parse_generic_type, parseArgsList, parseArgsLoop, removeSpaces,
      splitFirstLt, pyStrip, pyIsSpace]]
  rw [show generic_to_string (TypeDesc.mk "int".data []) = "int".data by decide]
  rw [show infer_dummy_value "int".data = "0".data by
    rw [infer_eq_pattern "int".data "int".data (by decide)
      (by simp [parse_generic_type, parseArgsList, parseArgsLoop, removeSpaces,
        splitFirstLt, pyStrip, pyIsSpace])]
    decide]
  rw [if_neg (by decide)]
  decide

theorem infer_object_array :
    infer_dummy_value "object[]".data = "new object[] \x7b \x7d".data := by
  rw [infer_eq_array "object[]".data (by decide)]
  rw [show (removeSpaces (pyStrip "object[]".data)).dropLast.dropLast = "object".data by decide]
  rw [show parse_generic_type "object".data = TypeDesc.mk "object".data [] by
    simp [parse_generic_type, parseArgsList, parseArgsLoop, removeSpaces,
      splitFirstLt, pyStrip, pyIsSpace]]
  rw [show generic_to_string (TypeDesc.mk "object".data []) = "object".data by decide]
  rw [show infer_dummy_value "object".data = "null".data by
    rw [infer_eq_pattern "object".data "object".data (by decide)
      (by simp [parse_generic_type, parseArgsList, parseArgsLoop, removeSpaces,
        splitFirstLt, pyStrip, pyIsSpace])]
    decide]
  rw [if_pos (by decide)]
  decide

/-- C6: a trailing `[]` yields an array literal with zero elements when the
element type's dummy value is the null sentinel and exactly one element (the
element dummy) otherwise; `int[]` gives `new int[] { 0 }` and `object[]`
gives `new object[] { }`. -/
theorem claim_C6 :
    (∀ s : List Char,
      py_endswith "[]".data (removeSpaces (pyStrip s)) = true →
      py_endswith "[]".data ((removeSpaces (pyStrip s)).dropLast.dropLast) = false →
      infer_dummy_value s =
        (if infer_dummy_value (generic_to_string (parse_generic_type
              ((removeSpaces (pyStrip s)).dropLast.dropLast))) = "null".data then
          "new ".data ++ removeSpaces (pyStrip s) ++ " \x7b \x7d".data
        else
          "new ".data ++ removeSpaces (pyStrip s) ++ " \x7b ".data ++
            infer_dummy_value (generic_to_string (parse_generic_type
              ((removeSpaces (pyStrip s)).dropLast.dropLast))) ++ " \x7d".data)) ∧
    infer_dummy_value "int[]".data = "new int[] \x7b 0 \x7d".data ∧
    infer_dummy_value "object[]".data = "new object[] \x7b \x7d".data :=
  ⟨fun s h _ => infer_eq_array s h, infer_int_array, infer_object_array⟩

/-- C6 witness: the general array rule applied at `int[]`. -/
theorem claim_C6_witness :
    infer_dummy_value "int[]".data =
      (if infer_dummy_value (generic_to_string (parse_generic_type
            ((removeSpaces (pyStrip "int[]".data)).dropLast.dropLast))) = "null".data then
        "new ".data ++ removeSpaces (pyStrip "int[]".data) ++ " \x7b \x7d".data
      else
        "new ".data ++ removeSpaces (pyStrip "int[]".data) ++ " \x7b ".data ++
          infer_dummy_value (generic_to_string (parse_generic_type
            ((removeSpaces (pyStrip "int[]".data)).dropLast.dropLast))) ++ " \x7d".data) :=
  claim_C6.1 "int[]".data (by decide) (by decide)

/-- C7: a dictionary base (case-insensitive) with two or more generic
arguments yields an empty construction of the full reconstructed generic
type; with exactly one generic argument it yields the null sentinel. -/
theorem claim_C7 :
    (∀ (s base : List Char) (g0 g1 : TypeDesc) (gs : List TypeDesc),
      py_endswith "[]".data (removeSpaces (pyStrip s)) = false →
      parse_generic_type (removeSpaces (pyStrip s)) = .mk base (g0 :: g1 :: gs) →
      pyLower base = "dictionary".data →
      infer_dummy_value s =
        "new ".data ++ generic_to_string (.mk base (g0 :: g1 :: gs)) ++ "()".data) ∧
    (∀ (s base : List Char) (g0 : TypeDesc),
      py_endswith "[]".data (removeSpaces (pyStrip s)) = false →
      parse_generic_type (removeSpaces (pyStrip s)) = .mk base [g0] →
      pyLower base = "dictionary".data →
      infer_dummy_value s = "null".data) :=
  ⟨infer_eq_dict_ge2, infer_eq_dict_one⟩

/-- C7 witness: `Dictionary<string,int>` and `Dictionary<string>`. -/
theorem claim_C7_witness :
    infer_dummy_value "Dictionary<string,int>".data =
      "new ".data ++ generic_to_string
        (TypeDesc.mk "Dictionary".data
          [TypeDesc.mk "string".data [], TypeDesc.mk "int".data []]) ++ "()".data ∧
    infer_dummy_value "Dictionary<string>".data = "null".data := by
  constructor
  · exact claim_C7.1 "Dictionary<string,int>".data "Dictionary".data
      (.mk "string".data []) (.mk "int".data []) [] (by decide)
      (by simp [parse_generic_type, parseArgsList, parseArgsLoop, removeSpaces,
        splitFirstLt, pyStrip, pyIsSpace]) (by decide)
  · exact claim_C7.2 "Dictionary<string>".data "Dictionary".data
      (.mk "string".data []) (by decide)
      (by simp [parse_generic_type, parseArgsList, parseArgsLoop, removeSpaces,
        splitFirstLt, pyStrip, pyIsSpace]) (by decide)

/-- C8: the arrange-block generator's constructor selection
(`ctor = max(constructors, key=lambda c: len(c['params']))`, embedded as
`select_ctor` and used by `compute_arrange`) returns a constructor of the
list with the greatest parameter count, and on ties the first-encountered
one: every earlier constructor has strictly fewer parameters. -/
theorem claim_C8 : ∀ (c : CtorInfo) (cs : List CtorInfo),
    select_ctor c cs ∈ c :: cs ∧
    (∀ x ∈ c :: cs, x.params.length ≤ (select_ctor c cs).params.length) ∧
    ∃ pre post, c :: cs = pre ++ select_ctor c cs :: post ∧
      ∀ x ∈ pre, x.params.length < (select_ctor c cs).params.length := by
  intro c cs
  exact ⟨pyMaxBy_mem (fun k => k.params.length) cs c,
    fun x hx => pyMaxBy_ge (fun k => k.params.length) cs c x hx,
    pyMaxBy_first (fun k => k.params.length) cs c⟩

/-- C9: for each parameter of the selected constructor, in declared order:
an interface-looking type (capital `I` first) contributes the mock's
`.Object` accessor as the positional constructor argument together with a
mock declaration and one placeholder setup line (whose `.Returns(...)`
carries the type's inferred dummy value, by definition of `setup_line`);
any other type contributes its inferred dummy value directly. -/
theorem claim_C9 : ∀ (ps : List (List Char)) (i : Nat) (h : i < ps.length)
    (h2 : i < (arrange_loop 0 ps).1.length),
    (arrange_loop 0 ps).1.length = ps.length ∧
    (startswithI ps[i] = true →
      (arrange_loop 0 ps).1[i] = mock_var i ++ ".Object".data ∧
      mock_decl i ps[i] ∈ (arrange_loop 0 ps).2.1 ∧
      setup_line i ps[i] ∈ (arrange_loop 0 ps).2.2) ∧
    (startswithI ps[i] = false →
      (arrange_loop 0 ps).1[i] = infer_dummy_value ps[i]) := by
  intro ps i h h2
  refine ⟨arrange_loop_args_length ps 0, ?_, ?_⟩
  · intro hI
    have hget := arrange_loop_args_get ps 0 i h h2
    have hmem := arrange_loop_mock_mem ps 0 i h hI
    rw [Nat.zero_add] at hget hmem
    exact ⟨by rw [hget, if_pos hI], hmem.1, hmem.2⟩
  · intro hI
    have hget := arrange_loop_args_get ps 0 i h h2
    rw [Nat.zero_add] at hget
    rw [hget, if_neg (by simp [hI])]

/-- C9 witness: parameters `IRepository` (mocked) and `Repository` (plain
dummy) at indices 0 and 1. -/
theorem claim_C9_witness :
    ((arrange_loop 0 ["IRepository".data, "Repository".data]).1.length =
      (["IRepository".data, "Repository".data] : List (List Char)).length ∧
    (startswithI (["IRepository".data, "Repository".data] : List (List Char))[0] = true →
      (arrange_loop 0 ["IRepository".data, "Repository".data]).1[0] =
        mock_var 0 ++ ".Object".data ∧
      mock_decl 0 (["IRepository".data, "Repository".data] : List (List Char))[0] ∈
        (arrange_loop 0 ["IRepository".data, "Repository".data]).2.1 ∧
      setup_line 0 (["IRepository".data, "Repository".data] : List (List Char))[0] ∈
        (arrange_loop 0 ["IRepository".data, "Repository".data]).2.2) ∧
    (startswithI (["IRepository".data, "Repository".data] : List (List Char))[0] = false →
      (arrange_loop 0 ["IRepository".data, "Repository".data]).1[0] =
        infer_dummy_value (["IRepository".data, "Repository".data] : List (List Char))[0])) :=
  claim_C9 ["IRepository".data, "Repository".data] 0 (by decide)
    (by rw [arrange_loop_args_length]; decide)

/-- C10: with no extracted constructors, or with a selected constructor of
zero parameters, the arrange block is just the header plus a parameterless
target construction — no mock declarations and no setup lines. -/
theorem claim_C10 : ∀ (cls : List Char) (ctors : List CtorInfo),
    (ctors = [] ∨ ∃ c cs, ctors = c :: cs ∧ (select_ctor c cs).params = []) →
    compute_arrange cls ctors =
      "            // Arrange\n".data ++
        "            var target = new ".data ++ cls ++ "();\n".data := by
  intro cls ctors hyp
  rcases hyp with h | ⟨c, cs, hcc, hp⟩
  · subst h
    rfl
  · subst hcc
    simp only [compute_arrange, hp]
    simp [arrange_loop, joinSep]

/-- C10 witness: no constructors at all. -/
theorem claim_C10_witness :
    compute_arrange "Foo".data [] =
      "            // Arrange\n".data ++
        "            var target = new ".data ++ "Foo".data ++ "();\n".data :=
  claim_C10 "Foo".data [] (Or.inl rfl)

end Claims

end GenUnitTests
